import Mathlib

/-!
Verification of the mGranger dDTF connectivity pipeline
(`mGrangerdDTF.py`, `mGrangerStats2.py`).

Complex floating-point values are embedded as Gaussian rationals `GM`
(pairs of rationals with complex multiplication); real floats as `ℚ`.
Magnitudes (`np.abs` of a complex value) are tracked through their
squares (`magSq`), since `sqrt` is monotone and injective on
nonnegative reals: statements `|x| = |y|` and `|x| ∈ [0,1]` are stated
as `magSq x = magSq y` and `magSq x ∈ [0,1]`.
-/

/-- Gaussian-rational complex scalar: embeds one complex floating-point
value of the numpy code as an exact pair (re, im) of rationals. -/
structure GM where
  re : ℚ
  im : ℚ
deriving DecidableEq, Repr

theorem GM.ext {x y : GM} (h1 : x.re = y.re) (h2 : x.im = y.im) : x = y := by
  cases x; cases y; cases h1; cases h2; rfl

instance : Zero GM := ⟨⟨0, 0⟩⟩

instance : One GM := ⟨⟨1, 0⟩⟩

instance : Add GM := ⟨fun x y => ⟨x.re + y.re, x.im + y.im⟩⟩

instance : Neg GM := ⟨fun x => ⟨-x.re, -x.im⟩⟩

instance : Sub GM := ⟨fun x y => ⟨x.re - y.re, x.im - y.im⟩⟩

instance : Mul GM := ⟨fun x y => ⟨x.re * y.re - x.im * y.im, x.re * y.im + x.im * y.re⟩⟩

/-- Complex reciprocal (1/z); 0 for z = 0, matching the field convention. -/
instance : Inv GM :=
  ⟨fun x => ⟨x.re / (x.re * x.re + x.im * x.im), -x.im / (x.re * x.re + x.im * x.im)⟩⟩

instance : Div GM := ⟨fun x y => x * y⁻¹⟩

namespace GM

@[simp] theorem zero_re : (0 : GM).re = 0 := rfl

@[simp] theorem zero_im : (0 : GM).im = 0 := rfl

@[simp] theorem one_re : (1 : GM).re = 1 := rfl

@[simp] theorem one_im : (1 : GM).im = 0 := rfl

@[simp] theorem add_re (x y : GM) : (x + y).re = x.re + y.re := rfl

@[simp] theorem add_im (x y : GM) : (x + y).im = x.im + y.im := rfl

@[simp] theorem neg_re (x : GM) : (-x).re = -x.re := rfl

@[simp] theorem neg_im (x : GM) : (-x).im = -x.im := rfl

@[simp] theorem sub_re (x y : GM) : (x - y).re = x.re - y.re := rfl

@[simp] theorem sub_im (x y : GM) : (x - y).im = x.im - y.im := rfl

@[simp] theorem mul_re (x y : GM) : (x * y).re = x.re * y.re - x.im * y.im := rfl

@[simp] theorem mul_im (x y : GM) : (x * y).im = x.re * y.im + x.im * y.re := rfl

@[simp] theorem inv_re (x : GM) : (x⁻¹).re = x.re / (x.re * x.re + x.im * x.im) := rfl

@[simp] theorem inv_im (x : GM) : (x⁻¹).im = -x.im / (x.re * x.re + x.im * x.im) := rfl

end GM

instance : CommRing GM where
  add_assoc a b c := GM.ext (by simp; ring) (by simp; ring)
  zero_add a := GM.ext (by simp) (by simp)
  add_zero a := GM.ext (by simp) (by simp)
  add_comm a b := GM.ext (by simp; ring) (by simp; ring)
  left_distrib a b c := GM.ext (by simp; ring) (by simp; ring)
  right_distrib a b c := GM.ext (by simp; ring) (by simp; ring)
  zero_mul a := GM.ext (by simp) (by simp)
  mul_zero a := GM.ext (by simp) (by simp)
  mul_assoc a b c := GM.ext (by simp; ring) (by simp; ring)
  one_mul a := GM.ext (by simp) (by simp)
  mul_one a := GM.ext (by simp) (by simp)
  mul_comm a b := GM.ext (by simp; ring) (by simp; ring)
  neg_add_cancel a := GM.ext (by simp) (by simp)
  sub_eq_add_neg a b := GM.ext (by simp; ring) (by simp; ring)
  nsmul := nsmulRec
  zsmul := zsmulRec

namespace GM

/-- Embed a real value into `GM`. -/
def ofRat (q : ℚ) : GM := ⟨q, 0⟩

@[simp] theorem ofRat_re (q : ℚ) : (ofRat q).re = q := rfl

@[simp] theorem ofRat_im (q : ℚ) : (ofRat q).im = 0 := rfl

/-- Squared magnitude: `|z|^2 = re^2 + im^2`.  All magnitude claims of the
spec are stated through this (sqrt is order-preserving on nonnegatives). -/
def magSq (z : GM) : ℚ := z.re * z.re + z.im * z.im

theorem magSq_nonneg (z : GM) : 0 ≤ magSq z :=
  add_nonneg (mul_self_nonneg z.re) (mul_self_nonneg z.im)

theorem magSq_mul (x y : GM) : magSq (x * y) = magSq x * magSq y := by
  unfold magSq; simp; ring

theorem magSq_eq_zero_iff (z : GM) : magSq z = 0 ↔ z = 0 := by
  constructor
  · intro h
    have h1 : z.re * z.re + z.im * z.im = 0 := h
    have hre : z.re = 0 := by nlinarith [mul_self_nonneg z.re, mul_self_nonneg z.im]
    have him : z.im = 0 := by nlinarith [mul_self_nonneg z.re, mul_self_nonneg z.im]
    exact GM.ext hre him
  · intro h; subst h; simp [magSq]

theorem mul_inv_self (a : GM) (h : a ≠ 0) : a * a⁻¹ = 1 := by
  have hm : a.re * a.re + a.im * a.im ≠ 0 := fun hz => h ((magSq_eq_zero_iff a).mp hz)
  refine GM.ext ?_ ?_
  all_goals simp only [mul_re, mul_im, inv_re, inv_im, one_re, one_im]
  all_goals field_simp
  all_goals ring

/-- Explicit natural power of a `GM` value (kernel-reducible). -/
def gpow (z : GM) : ℕ → GM
  | 0 => 1
  | n + 1 => z * gpow z n

end GM

/-!
## Surrogate generation (`mGrangerStats2.generate_surrogate`)

For each surrogate set and channel (independent component) the code takes
`original_fft = np.fft.fft(channel)`, keeps bin 0, multiplies bins
`1..half_len` (idx1) and `half_len+1..n-1` (idx2) by freshly drawn unit
phases `exp(2πi·rand)`, then returns `np.real(np.fft.ifft(surrogate_fft))`.
The random unit phases enter the embedding as function parameters. -/

/-- The phase-randomized spectrum `surrogate_fft` built by
`generate_surrogate`: bin 0 copied, bins `1..half` (with
`half = (n-1)/2`) multiplied by `ph1`, bins above `half` by `ph2`. -/
def surrogateFFT (n : ℕ) (Y : Fin n → GM) (ph1 ph2 : Fin n → GM) : Fin n → GM :=
  fun k =>
    if k.val = 0 then Y k
    else if k.val ≤ (n - 1) / 2 then Y k * ph1 k
    else Y k * ph2 k

/-- Length-4 discrete Fourier transform, `X_k = Σ_t x_t·(-i)^(k·t)`:
the exact value of `np.fft.fft` on a length-4 input (the 4th roots of
unity are Gaussian rationals). -/
def fft4 (x : Fin 4 → GM) : Fin 4 → GM :=
  fun k => ∑ t : Fin 4, x t * GM.gpow ⟨0, -1⟩ (k.val * t.val)

/-- Length-4 inverse discrete Fourier transform,
`x_t = (1/4)·Σ_k X_k·i^(k·t)`: the exact value of `np.fft.ifft`. -/
def ifft4 (X : Fin 4 → GM) : Fin 4 → GM :=
  fun t => GM.ofRat (1 / 4) * ∑ k : Fin 4, X k * GM.gpow ⟨0, 1⟩ (k.val * t.val)

/-- One surrogate channel of `generate_surrogate` for a length-4 series:
`half_len = 1`, so idx1 = {1} gets phase `p1` and idx2 = {2, 3} gets
phases `p2a`, `p2b`; the result is the real part of the inverse FFT. -/
def surrogateChannel4 (x : Fin 4 → ℚ) (p1 p2a p2b : GM) : Fin 4 → ℚ :=
  let Y := fft4 (fun t => GM.ofRat (x t))
  let s : Fin 4 → GM := ![Y 0, Y 1 * p1, Y 2 * p2a, Y 3 * p2b]
  fun t => (ifft4 s t).re

/-- Concrete original channel for the C1 counterexample: a length-4 unit
impulse, whose FFT is 1 at every bin. -/
def c1Channel : Fin 4 → ℚ := ![1, 0, 0, 0]

/-- Claim C1, counterexample. At the length-4 input (1,0,0,0) with the
admissible unit phase draws i (= exp(2πi·0.25)) for bin 1 and 1
(= exp(2πi·0)) for bins 2 and 3, the surrogate channel returned by
`generate_surrogate` (real part of the inverse FFT) has
|FFT(surrogate)|² = 1/2 at bin 1 while |FFT(original)|² = 1: the
per-bin spectral magnitude is not preserved (1/√2 vs 1 is far beyond
floating-point tolerance). -/
theorem C1_counterexample :
    GM.magSq ⟨0, 1⟩ = 1 ∧ GM.magSq 1 = 1 ∧
    GM.magSq (fft4 (fun t => GM.ofRat (surrogateChannel4 c1Channel ⟨0, 1⟩ 1 1 t)) 1) = 1 / 2 ∧
    GM.magSq (fft4 (fun t => GM.ofRat (c1Channel t)) 1) = 1 ∧
    GM.magSq (fft4 (fun t => GM.ofRat (surrogateChannel4 c1Channel ⟨0, 1⟩ 1 1 t)) 1) ≠
      GM.magSq (fft4 (fun t => GM.ofRat (c1Channel t)) 1) := by
  have h3 : GM.magSq (fft4 (fun t => GM.ofRat (surrogateChannel4 c1Channel ⟨0, 1⟩ 1 1 t)) 1)
      = 1 / 2 := by
    norm_num [GM.magSq, fft4, surrogateChannel4, ifft4, c1Channel, GM.gpow, GM.ofRat,
      Fin.sum_univ_four]
  have h4 : GM.magSq (fft4 (fun t => GM.ofRat (c1Channel t)) 1) = 1 := by
    norm_num [GM.magSq, fft4, c1Channel, GM.gpow, GM.ofRat, Fin.sum_univ_four]
  refine ⟨by norm_num [GM.magSq], by norm_num [GM.magSq], h3, h4, ?_⟩
  rw [h3, h4]
  norm_num

/-- Claim C1, amended. The phase randomization preserves per-bin spectral
magnitude exactly in the surrogate spectrum `surrogate_fft` (before the
inverse transform): for unit-modulus phase draws, |surrogate_fft[k]| =
|original_fft[k]| at every bin.  The guarantee does not survive the
final `np.real(np.fft.ifft(...))` step (see the counterexample). -/
theorem C1_spectrum_magnitude_preserved (n : ℕ) (Y ph1 ph2 : Fin n → GM)
    (h1 : ∀ k, GM.magSq (ph1 k) = 1) (h2 : ∀ k, GM.magSq (ph2 k) = 1) :
    ∀ k, GM.magSq (surrogateFFT n Y ph1 ph2 k) = GM.magSq (Y k) := by
  intro k
  unfold surrogateFFT
  by_cases h0 : k.val = 0
  · simp [h0]
  · by_cases hh : k.val ≤ (n - 1) / 2
    · simp [h0, hh, GM.magSq_mul, h1 k]
    · simp [h0, hh, GM.magSq_mul, h2 k]

/-- Witness for `C1_spectrum_magnitude_preserved` at a concrete length-4
spectrum with unit phases i and 1. -/
theorem C1_spectrum_magnitude_preserved_witness :
    GM.magSq (surrogateFFT 4 (fun t => GM.ofRat (c1Channel t))
        (fun _ => ⟨0, 1⟩) (fun _ => 1) 1) = GM.magSq (GM.ofRat (c1Channel 1)) ∧
    GM.magSq (surrogateFFT 4 (fun t => GM.ofRat (c1Channel t))
        (fun _ => ⟨0, 1⟩) (fun _ => 1) 3) = GM.magSq (GM.ofRat (c1Channel 3)) :=
  ⟨C1_spectrum_magnitude_preserved 4 (fun t => GM.ofRat (c1Channel t))
      (fun _ => ⟨0, 1⟩) (fun _ => 1)
      (fun _ => show GM.magSq ⟨0, 1⟩ = 1 by norm_num [GM.magSq])
      (fun _ => show GM.magSq 1 = 1 by norm_num [GM.magSq]) 1,
    C1_spectrum_magnitude_preserved 4 (fun t => GM.ofRat (c1Channel t))
      (fun _ => ⟨0, 1⟩) (fun _ => 1)
      (fun _ => show GM.magSq ⟨0, 1⟩ = 1 by norm_num [GM.magSq])
      (fun _ => show GM.magSq 1 = 1 by norm_num [GM.magSq]) 3⟩

/-!
## VAR fitter (`mGrangerdDTF.compute_A_n`)

`compute_A_n` calls the external statsmodels estimator (`VAR(data).fit(order)`),
whose fitted lag matrices `result.coefs` (shape `order × C × C`) enter the
embedding as the list `coefs`.  The code stacks them and keeps only slice
`[0, :, :]` — the lag-1 matrix — whatever the supplied order. -/

/-- The value of `compute_A_n` as a function of the fitted lag matrices:
`np.stack(result.coefs)[0, :, :]`, i.e. the first lag matrix only. -/
def compute_A_n (c : ℕ) (coefs : List (Matrix (Fin c) (Fin c) ℚ)) :
    Matrix (Fin c) (Fin c) ℚ :=
  coefs.headI

/-- First lag matrix of the concrete order-2 fit used against claim C2. -/
def c2lag1 : Matrix (Fin 1) (Fin 1) ℚ := Matrix.of ![![1]]

/-- Second lag matrix of the concrete order-2 fit used against claim C2. -/
def c2lag2 : Matrix (Fin 1) (Fin 1) ℚ := Matrix.of ![![2]]

/-- Claim C2, counterexample.  For a supplied order p = 2 with fitted lag
matrices `[c2lag1, c2lag2]`, `compute_A_n` returns only the single lag-1
matrix `c2lag1`: the returned data, viewed as a coefficient tensor, is
`[c2lag1]` and not the full 2 × C × C tensor `[c2lag1, c2lag2]`. -/
theorem C2_counterexample :
    compute_A_n 1 [c2lag1, c2lag2] = c2lag1 ∧
    [compute_A_n 1 [c2lag1, c2lag2]] ≠ [c2lag1, c2lag2] := by
  constructor
  · rfl
  · intro h
    have hl := congrArg List.length h
    simp at hl

/-- Claim C2, amended.  `compute_A_n` returns only the first (lag-1)
C × C coefficient matrix of the fit; the lag matrices beyond the first
never influence its result, so the downstream pipeline sees a single
lag regardless of the supplied order. -/
theorem C2_first_lag_only (c : ℕ) (M : Matrix (Fin c) (Fin c) ℚ)
    (cs cs' : List (Matrix (Fin c) (Fin c) ℚ)) :
    compute_A_n c (M :: cs) = M ∧
    compute_A_n c (M :: cs) = compute_A_n c (M :: cs') := by
  exact ⟨rfl, rfl⟩

/-!
## Residuals (`mGrangerdDTF.compute_E`)

`compute_E(data, A)` sets `lag_order = A.shape[0]`, drops the first
`lag_order` rows of `data` into `observed_variables`, allocates
`errors = zeros_like(observed_variables)`, and then fills
`errors[i - lag_order]` only for `i` in
`range(lag_order, len(observed_variables))` with
`observed[i] - Σ_lag coefficients[lag-1] · observed[i - lag]`. -/

/-- Matrix–vector product, `np.dot(coefficients[lag-1], observed[i-lag])`. -/
def matVec (c : ℕ) (M : Matrix (Fin c) (Fin c) ℚ) (v : Fin c → ℚ) : Fin c → ℚ :=
  fun i => ∑ j, M i j * v j

/-- `compute_E`: rows are indexed over `range(len(observed_variables))`;
row `k` (written at `errors[i - lag_order]` for `i = k + lag_order`) is
filled only when `k + lag_order < len(observed_variables)`, else it keeps
its `np.zeros_like` value. -/
def compute_E (c : ℕ) (data : List (Fin c → ℚ))
    (A : List (Matrix (Fin c) (Fin c) ℚ)) : List (Fin c → ℚ) :=
  let p := A.length
  let observed := data.drop p
  (List.range observed.length).map (fun k =>
    if k + p < observed.length then
      fun ch => observed.getD (k + p) 0 ch
        - ∑ lag ∈ Finset.Icc 1 p,
            matVec c (A.getD (lag - 1) 0) (observed.getD (k + p - lag) 0) ch
    else 0)

/-- Claim C9.  For an input series of length T and a coefficient tensor
with p lags, the residual matrix has T − p rows and every row of index
at least T − 2p is identically zero: the final p rows are never written,
only rows up to index T − 2p − 1 hold model residuals. -/
theorem C9_compute_E_trailing_rows_zero (c : ℕ) (data : List (Fin c → ℚ))
    (A : List (Matrix (Fin c) (Fin c) ℚ)) :
    (compute_E c data A).length = data.length - A.length ∧
    ∀ k : ℕ, data.length - 2 * A.length ≤ k →
      (compute_E c data A).getD k 0 = 0 := by
  constructor
  · simp [compute_E]
  · intro k hk
    by_cases hlen : k < (data.drop A.length).length
    · have hrange : k < (List.range (data.drop A.length).length).length := by
        simpa using hlen
      unfold compute_E
      rw [List.getD_eq_getElem?_getD, List.getElem?_map]
      rw [List.getElem?_range hlen]
      have hcond : ¬ (k + A.length < (data.drop A.length).length) := by
        rw [List.length_drop] at hlen ⊢
        omega
      simp [hcond]
      intro h
      exfalso
      rw [List.length_drop] at hcond
      omega
    · unfold compute_E
      rw [List.getD_eq_getElem?_getD]
      rw [List.getElem?_eq_none]
      · rfl
      · simpa using hlen

/-- Concrete length-4 one-channel series for the C9 witness. -/
def c9data : List (Fin 1 → ℚ) := [![1], ![2], ![3], ![4]]

/-- Witness for `C9_compute_E_trailing_rows_zero`: with T = 4 samples and
p = 1 lag, the residual matrix has 3 rows and row 2 (index ≥ T − 2p = 2)
is zero. -/
theorem C9_compute_E_trailing_rows_zero_witness :
    (compute_E 1 c9data [c2lag1]).length = 3 ∧
    (compute_E 1 c9data [c2lag1]).getD 2 0 = 0 := by
  refine ⟨?_, ?_⟩
  · have h := (C9_compute_E_trailing_rows_zero 1 c9data [c2lag1]).1
    simpa [c9data] using h
  · exact (C9_compute_E_trailing_rows_zero 1 c9data [c2lag1]).2 2 (by simp [c9data])

/-!
## Significance testing (`mGrangerStats2.significance_testing`)

`significance_testing(surrogate_series, my_pvalue)` builds
`og = mGrangerdDTF(data=self.original_data)` and, per surrogate set s,
`mGrangerdDTF(data=surrogate_series[s])` — both with the constructor's
keyword defaults (order=1, num_frequencies=10, limits 0.01 and 0.1) —
takes `np.abs(...dDTF_ij)` of each run, feeds each pair's null
distribution to `scipy.stats.ttest_1samp` against the observed value,
halves the two-tailed p-value, thresholds strictly at `my_pvalue`, and
multiplies the original |dDTF| matrix by the boolean mask.

The full numeric pipeline (statsmodels fit, FFTs, inversions) behind a
run enters the embedding as the parameter `P : Cfg → Series c → ...`,
standing for `data ↦ np.abs(mGrangerdDTF(data, cfg).dDTF_ij)`; the
scipy two-tailed one-sample t-test p-value enters as the parameter
`ttest : List ℚ → ℚ → ℚ`. -/

/-- Configuration of `mGrangerdDTF.__init__`. -/
structure Cfg where
  order : ℕ
  num_frequencies : ℕ
  lower_frequency_limit : ℚ
  upper_frequency_limit : ℚ
deriving DecidableEq, Repr

/-- The keyword defaults of `mGrangerdDTF.__init__`:
`order=1, num_frequencies=10, lower=0.01, upper=0.1`. -/
def defaultCfg : Cfg := ⟨1, 10, 1 / 100, 1 / 10⟩

/-- A time-series matrix, one row per sample. -/
abbrev Series (c : ℕ) := List (Fin c → ℚ)

/-- `dDTF_og = np.abs(og.dDTF_ij)` with `og = mGrangerdDTF(data=original)`:
the pipeline parameter applied at the constructor's default config. -/
def dDTF_og (c : ℕ) (P : Cfg → Series c → Matrix (Fin c) (Fin c) ℚ)
    (data : Series c) : Matrix (Fin c) (Fin c) ℚ :=
  P defaultCfg data

/-- `su[s] = np.abs(mGrangerdDTF(data=surrogate_series[s]).dDTF_ij)`. -/
def surrogate_dDTF (c : ℕ) (P : Cfg → Series c → Matrix (Fin c) (Fin c) ℚ)
    (surr : ℕ → Series c) (s : ℕ) : Matrix (Fin c) (Fin c) ℚ :=
  P defaultCfg (surr s)

/-- The null distribution `su[:, i, j]` of a channel pair. -/
def nullDistribution (c N : ℕ) (P : Cfg → Series c → Matrix (Fin c) (Fin c) ℚ)
    (surr : ℕ → Series c) (i j : Fin c) : List ℚ :=
  (List.range N).map (fun s => surrogate_dDTF c P surr s i j)

/-- `p_values[i, j] = ttest_1samp(su[:, i, j], dDTF_og[i, j]).pvalue / 2`. -/
def p_values (c N : ℕ) (P : Cfg → Series c → Matrix (Fin c) (Fin c) ℚ)
    (ttest : List ℚ → ℚ → ℚ) (data : Series c) (surr : ℕ → Series c) :
    Matrix (Fin c) (Fin c) ℚ :=
  Matrix.of fun i j => ttest (nullDistribution c N P surr i j) (dDTF_og c P data i j) / 2

/-- `significance_levels = p_values < my_pvalue` (strict comparison). -/
def significant_connections (c N : ℕ) (P : Cfg → Series c → Matrix (Fin c) (Fin c) ℚ)
    (ttest : List ℚ → ℚ → ℚ) (data : Series c) (surr : ℕ → Series c) (α : ℚ)
    (i j : Fin c) : Bool :=
  decide (p_values c N P ttest data surr i j < α)

/-- `effective_connectivity_network = dDTF_og * significant_connections`
(elementwise product with the boolean mask, `True ↦ 1`, `False ↦ 0`). -/
def effective_connectivity_network (c N : ℕ)
    (P : Cfg → Series c → Matrix (Fin c) (Fin c) ℚ) (ttest : List ℚ → ℚ → ℚ)
    (data : Series c) (surr : ℕ → Series c) (α : ℚ) :
    Matrix (Fin c) (Fin c) ℚ :=
  Matrix.of fun i j =>
    dDTF_og c P data i j *
      (if significant_connections c N P ttest data surr α i j then 1 else 0)

/-- Claim C4.  For every channel pair (i, j), the returned network entry
equals the original |dDTF|(i, j) exactly when the halved two-tailed
t-test p-value of the surrogate null distribution against the observed
value is strictly below the significance level, and equals 0 otherwise. -/
theorem C4_network_threshold (c N : ℕ)
    (P : Cfg → Series c → Matrix (Fin c) (Fin c) ℚ) (ttest : List ℚ → ℚ → ℚ)
    (data : Series c) (surr : ℕ → Series c) (α : ℚ) (i j : Fin c) :
    effective_connectivity_network c N P ttest data surr α i j =
      if ttest (nullDistribution c N P surr i j) (dDTF_og c P data i j) / 2 < α
      then dDTF_og c P data i j else 0 := by
  unfold effective_connectivity_network significant_connections p_values
  by_cases h : ttest (nullDistribution c N P surr i j) (dDTF_og c P data i j) / 2 < α
  · simp [h]
  · simp [h]

/-- Mean of a list of reals, `np.mean`. -/
def listMean (l : List ℚ) : ℚ := l.sum / l.length

/-- Population variance of a list of reals, as in `scipy`'s null
distribution: mean squared deviation from the mean. -/
def listVar (l : List ℚ) : ℚ :=
  ((l.map (fun x => (x - listMean l) * (x - listMean l))).sum) / l.length

/-- Constant pipeline used against claim C8: every run returns the same
1 × 1 matrix with entry 5, so every null distribution is degenerate. -/
def c8P : Cfg → Series 1 → Matrix (Fin 1) (Fin 1) ℚ := fun _ _ => Matrix.of ![![5]]

/-- Stand-in t-test p-value function for the C8 counterexample (the
concrete value returned is irrelevant to the control flow under test). -/
def c8ttest : List ℚ → ℚ → ℚ := fun _ _ => 1

/-- Claim C8, counterexample.  `significance_testing` defines no
`DegenerateNullDistributionError`: at a concrete input whose null
distribution {5, 5} has zero variance, the pair (0, 0) is silently
assigned a p-value (the t-test result halved) and a mask and network
entry, instead of any failure. -/
theorem C8_counterexample :
    listVar (nullDistribution 1 2 c8P (fun _ => []) 0 0) = 0 ∧
    p_values 1 2 c8P c8ttest [] (fun _ => []) 0 0 = 1 / 2 ∧
    significant_connections 1 2 c8P c8ttest [] (fun _ => []) (1 / 20) 0 0 = false ∧
    effective_connectivity_network 1 2 c8P c8ttest [] (fun _ => []) (1 / 20) 0 0 = 0 := by
  have hnull : nullDistribution 1 2 c8P (fun _ => []) 0 0 = [5, 5] := by
    simp [nullDistribution, surrogate_dDTF, c8P, List.range_succ]
  refine ⟨?_, ?_, ?_, ?_⟩
  · rw [hnull]; norm_num [listVar, listMean]
  · simp [p_values, c8ttest]
  · simp [significant_connections, p_values, c8ttest]
    norm_num
  · simp [effective_connectivity_network, significant_connections, p_values, c8ttest]
    norm_num

/-- Claim C8, amended.  A channel pair whose surrogate null distribution
has zero variance is processed like every other pair: its p-value entry
is the t-test result halved and its network entry is the thresholded
original value — no error path exists in `significance_testing`. -/
theorem C8_zero_variance_still_assigned (c N : ℕ)
    (P : Cfg → Series c → Matrix (Fin c) (Fin c) ℚ) (ttest : List ℚ → ℚ → ℚ)
    (data : Series c) (surr : ℕ → Series c) (α : ℚ) (i j : Fin c)
    (_hvar : listVar (nullDistribution c N P surr i j) = 0) :
    p_values c N P ttest data surr i j =
      ttest (nullDistribution c N P surr i j) (dDTF_og c P data i j) / 2 ∧
    effective_connectivity_network c N P ttest data surr α i j =
      (if p_values c N P ttest data surr i j < α then dDTF_og c P data i j else 0) := by
  constructor
  · rfl
  · unfold effective_connectivity_network significant_connections
    by_cases h : p_values c N P ttest data surr i j < α
    · simp [h]
    · simp [h]

/-- Witness for `C8_zero_variance_still_assigned` at the concrete
degenerate input of the C8 analysis. -/
theorem C8_zero_variance_still_assigned_witness :
    p_values 1 2 c8P c8ttest [] (fun _ => []) 0 0 =
      c8ttest (nullDistribution 1 2 c8P (fun _ => []) 0 0)
        (dDTF_og 1 c8P []  0 0) / 2 ∧
    effective_connectivity_network 1 2 c8P c8ttest [] (fun _ => []) (1 / 20) 0 0 =
      (if p_values 1 2 c8P c8ttest [] (fun _ => []) 0 0 < 1 / 20
       then dDTF_og 1 c8P [] 0 0 else 0) :=
  C8_zero_variance_still_assigned 1 2 c8P c8ttest [] (fun _ => []) (1 / 20) 0 0
    (by simp [nullDistribution, surrogate_dDTF, c8P, List.range_succ]
        norm_num [listVar, listMean])

/-- Claim C10.  Every pipeline run constructed inside
`significance_testing` — for the original series and for every
surrogate set — uses the fixed constructor defaults (order 1, 10
frequencies, band [0.01, 0.1]); no other configuration of the pipeline
can influence the outputs, since the caller supplies none. -/
theorem C10_default_configuration (c N : ℕ) :
    defaultCfg = ⟨1, 10, 1 / 100, 1 / 10⟩ ∧
    (∀ (P : Cfg → Series c → Matrix (Fin c) (Fin c) ℚ) (data : Series c)
        (surr : ℕ → Series c) (s : ℕ),
      dDTF_og c P data = P defaultCfg data ∧
      surrogate_dDTF c P surr s = P defaultCfg (surr s)) ∧
    (∀ (P Q : Cfg → Series c → Matrix (Fin c) (Fin c) ℚ)
        (ttest : List ℚ → ℚ → ℚ) (data : Series c) (surr : ℕ → Series c) (α : ℚ),
      P defaultCfg = Q defaultCfg →
      p_values c N P ttest data surr = p_values c N Q ttest data surr ∧
      effective_connectivity_network c N P ttest data surr α =
        effective_connectivity_network c N Q ttest data surr α) := by
  refine ⟨rfl, fun P data surr s => ⟨rfl, rfl⟩, ?_⟩
  intro P Q ttest data surr α h
  have hp : p_values c N P ttest data surr = p_values c N Q ttest data surr := by
    unfold p_values nullDistribution surrogate_dDTF dDTF_og
    rw [h]
  refine ⟨hp, ?_⟩
  unfold effective_connectivity_network significant_connections dDTF_og
  rw [hp, h]

/-- Witness for `C10_default_configuration`, instantiating the pipeline
equality hypothesis reflexively at the constant pipeline. -/
theorem C10_default_configuration_witness :
    p_values 1 2 c8P c8ttest [] (fun _ => []) =
      p_values 1 2 c8P c8ttest [] (fun _ => []) ∧
    effective_connectivity_network 1 2 c8P c8ttest [] (fun _ => []) (1 / 20) =
      effective_connectivity_network 1 2 c8P c8ttest [] (fun _ => []) (1 / 20) :=
  (C10_default_configuration 1 2).2.2 c8P c8P c8ttest [] (fun _ => []) (1 / 20) rfl

/-!
## Frequency-domain transform (`compute_A_f`, `compute_H_f`, `compute_H_h`)

`compute_A_f` computes `A_fft = np.fft.fft2(A_n)` once and, for each grid
frequency, the elementwise product `a_ij_f = A_fft * exp_term` followed by
`a_ij_f -= np.eye(C)`.  The matrices `A_fft` and `exp_term` have
transcendental entries in general (`exp(-2πi·f·fftfreq·t)`), so they enter
the embedding as inputs; the structure `transform - identity` is what the
claims are about.  `compute_H_f` inverts every slice with `np.linalg.inv`. -/

/-- The AR-coefficient-to-frequency transform applied by the code at one
grid frequency: the elementwise (Hadamard) product `A_fft * exp_term`. -/
def frequencyTransform (c : ℕ) (A_fft expSlice : Matrix (Fin c) (Fin c) GM) :
    Matrix (Fin c) (Fin c) GM :=
  Matrix.of fun i j => A_fft i j * expSlice i j

/-- `compute_A_f`: per frequency slice,
`a_ij_f = A_fft * exp_term - np.eye(C)` (identity subtracted from the
transform, elementwise). -/
def compute_A_f (c F : ℕ) (A_fft : Matrix (Fin c) (Fin c) GM)
    (expTerm : Fin F → Matrix (Fin c) (Fin c) GM) :
    Fin F → Matrix (Fin c) (Fin c) GM :=
  fun idx => Matrix.of fun i j =>
    A_fft i j * expTerm idx i j - (1 : Matrix (Fin c) (Fin c) GM) i j

/-- The matrix inverse computed by `np.linalg.inv`, as
`det⁻¹ • adjugate` (the unique two-sided inverse when `det ≠ 0`). -/
def matInv (c : ℕ) (M : Matrix (Fin c) (Fin c) GM) : Matrix (Fin c) (Fin c) GM :=
  (M.det)⁻¹ • M.adjugate

/-- `compute_H_f`: `h[i] = np.linalg.inv(a_ij_f_slices[i])` per slice. -/
def compute_H_f (c F : ℕ) (slices : Fin F → Matrix (Fin c) (Fin c) GM) :
    Fin F → Matrix (Fin c) (Fin c) GM :=
  fun idx => matInv c (slices idx)

theorem matInv_mul_self (c : ℕ) (M : Matrix (Fin c) (Fin c) GM)
    (h : M.det ≠ 0) : M * matInv c M = 1 := by
  unfold matInv
  rw [Matrix.mul_smul, Matrix.mul_adjugate, smul_smul]
  rw [mul_comm, GM.mul_inv_self M.det h, one_smul]

/-- Concrete 1 × 1 `A_fft` for the C3 analysis (`np.fft.fft2` of the
1 × 1 coefficient matrix [[2]] is [[2]] itself). -/
def c3Afft : Matrix (Fin 1) (Fin 1) GM := Matrix.of ![![GM.ofRat 2]]

/-- Concrete `exp_term` slice for the C3 analysis: for a 1 × 1
coefficient matrix `np.fft.fftfreq(1) = [0]`, so the exponential term is
exactly 1 at every grid frequency. -/
def c3Exp : Fin 1 → Matrix (Fin 1) (Fin 1) GM := fun _ => Matrix.of ![![1]]

/-- Claim C3, counterexample.  At the 1 × 1 coefficient matrix [[2]]
(where the transform slice is [[2]] exactly, for every grid frequency),
the code's `A(f)` is `transform - I = [[1]]`, while the claimed
`I - transform` is `[[-1]]`: the sign convention of the claim does not
match the code. -/
theorem C3_counterexample :
    compute_A_f 1 1 c3Afft c3Exp 0 0 0 = GM.ofRat 1 ∧
    ((1 : Matrix (Fin 1) (Fin 1) GM) - frequencyTransform 1 c3Afft (c3Exp 0)) 0 0 =
      GM.ofRat (-1) ∧
    compute_A_f 1 1 c3Afft c3Exp 0 ≠
      (1 : Matrix (Fin 1) (Fin 1) GM) - frequencyTransform 1 c3Afft (c3Exp 0) := by
  have h1 : compute_A_f 1 1 c3Afft c3Exp 0 0 0 = GM.ofRat 1 := by
    simp [compute_A_f, c3Afft, c3Exp, Matrix.one_apply]
    refine GM.ext ?_ ?_ <;> norm_num [GM.ofRat]
  have h2 : ((1 : Matrix (Fin 1) (Fin 1) GM) -
      frequencyTransform 1 c3Afft (c3Exp 0)) 0 0 = GM.ofRat (-1) := by
    simp [frequencyTransform, c3Afft, c3Exp, Matrix.sub_apply, Matrix.one_apply]
    refine GM.ext ?_ ?_ <;> norm_num [GM.ofRat]
  refine ⟨h1, h2, ?_⟩
  intro h
  have := congrFun (congrFun h 0) 0
  rw [h1, h2] at this
  have hre := congrArg GM.re this
  norm_num [GM.ofRat] at hre

/-- Claim C3, amended.  For every coefficient spectrum and every grid
frequency, the code builds `A(f) = transform(A, f) - I` (the identity is
subtracted from the AR-coefficient-to-frequency transform — the opposite
sign from the claim), and `H(f)` is the inverse of that `A(f)`: whenever
`A(f)` is nonsingular, `A(f) · H(f) = I`. -/
theorem C3_A_f_and_H_f (c F : ℕ) (A_fft : Matrix (Fin c) (Fin c) GM)
    (expTerm : Fin F → Matrix (Fin c) (Fin c) GM) :
    (∀ idx, compute_A_f c F A_fft expTerm idx =
      frequencyTransform c A_fft (expTerm idx) - 1) ∧
    (∀ idx, (compute_A_f c F A_fft expTerm idx).det ≠ 0 →
      compute_A_f c F A_fft expTerm idx *
        compute_H_f c F (compute_A_f c F A_fft expTerm) idx = 1) := by
  constructor
  · intro idx
    ext i j
    simp [compute_A_f, frequencyTransform, Matrix.sub_apply]
  · intro idx hdet
    exact matInv_mul_self c (compute_A_f c F A_fft expTerm idx) hdet

/-- Witness for `C3_A_f_and_H_f`: at the concrete 1 × 1 input the slice
`A(f) = [[1]]` is nonsingular and `A(f) · H(f) = I`. -/
theorem C3_A_f_and_H_f_witness :
    compute_A_f 1 1 c3Afft c3Exp 0 *
      compute_H_f 1 1 (compute_A_f 1 1 c3Afft c3Exp) 0 = 1 :=
  (C3_A_f_and_H_f 1 1 c3Afft c3Exp).2 0 (by
    rw [Matrix.det_fin_one]
    intro h
    have hre := congrArg GM.re h
    norm_num [compute_A_f, c3Afft, c3Exp, Matrix.one_apply, GM.ofRat] at hre)

/-!
## Spectral density (`compute_V`, `compute_S_f`)

`compute_V(errors)` receives the frequency-stacked Fourier tensor
`errors_f` and returns `np.var(errors, axis=(1,2))`: the per-slice
variance of the complex entries, i.e. the mean squared deviation from
the slice mean.  `compute_S_f` forms, per slice, the elementwise product
`S[i] = H[i] * V[i] * H_h[i]` — no error path exists for `V(f) = 0`. -/

/-- `np.var` of one complex slice (axes 1, 2): mean of |x − mean|². -/
def compute_V (F S c : ℕ) (E : Fin F → Fin S → Fin c → GM) : Fin F → ℚ :=
  fun f =>
    let n : ℚ := ((S * c : ℕ) : ℚ)
    let m : GM := GM.ofRat (1 / n) * ∑ s, ∑ ch, E f s ch
    (∑ s, ∑ ch, GM.magSq (E f s ch - m)) / n

/-- `compute_S_f`: per slice, the elementwise product
`S[i,:,:] = H[i,:,:] * V[i] * H_h[i,:,:]`. -/
def compute_S_f (c F : ℕ) (H H_h : Fin F → Matrix (Fin c) (Fin c) GM)
    (V : Fin F → ℚ) : Fin F → Matrix (Fin c) (Fin c) GM :=
  fun f => Matrix.of fun i j => H f i j * GM.ofRat (V f) * H_h f i j

/-- Constant 1 × 1 transfer slice used in the C7 analysis. -/
def c7H : Fin 1 → Matrix (Fin 1) (Fin 1) GM := fun _ => 1

/-- Claim C7, counterexample.  At a constant residual spectrum (every
entry 1) the pooled variance of slice 0 is 0, and `compute_S_f` then
returns the zero matrix at that slice: a zero cross-spectral density is
produced and no `DegenerateResidualError` (which the code never defines)
is raised. -/
theorem C7_counterexample :
    compute_V 1 1 1 (fun _ _ _ => 1) 0 = 0 ∧
    compute_S_f 1 1 c7H c7H (compute_V 1 1 1 (fun _ _ _ => 1)) 0 = 0 := by
  have hV : compute_V 1 1 1 (fun _ _ _ => 1) 0 = 0 := by
    unfold compute_V
    simp only [Fin.sum_univ_one]
    norm_num [GM.magSq, GM.ofRat]
  refine ⟨hV, ?_⟩
  ext i j
  simp [compute_S_f, hV, GM.ofRat]
  refine GM.ext ?_ ?_ <;> simp

/-- Claim C7, amended.  Whenever the pooled residual variance is zero at
a frequency slice, `compute_S_f` silently produces the zero matrix at
that slice (the degenerate cross-spectral density the claim says is
prevented); the code contains no `DegenerateResidualError`, and the
failure only surfaces later when the singular `S(f)` is inverted in
`compute_partial_coherence`. -/
theorem C7_zero_variance_gives_zero_S (c F : ℕ)
    (H H_h : Fin F → Matrix (Fin c) (Fin c) GM) (V : Fin F → ℚ) (f : Fin F)
    (h : V f = 0) :
    compute_S_f c F H H_h V f = 0 := by
  ext i j
  simp [compute_S_f, h, GM.ofRat]
  refine GM.ext ?_ ?_ <;> simp

/-- Witness for `C7_zero_variance_gives_zero_S` at a concrete
one-slice input with vanishing variance vector. -/
theorem C7_zero_variance_gives_zero_S_witness :
    compute_S_f 1 1 c7H c7H (fun _ => 0) 0 = 0 :=
  C7_zero_variance_gives_zero_S 1 1 c7H c7H (fun _ => 0) 0 rfl

/-!
## dDTF aggregation (`compute_dDTF`, `compute_abs_dDTF`)

`compute_dDTF` accumulates `dDTF_ij += h_ij[f,i,j] * theta_ij[f,i,j]`
over `f in range(slices)` — ascending frequency-index order — and
`compute_abs_dDTF` is `np.abs` elementwise. -/

/-- `compute_dDTF`: per entry, the ascending-order left fold of the
accumulation loop `for f in range(slices): dDTF_ij[i,j] += h*theta`. -/
def compute_dDTF (c F : ℕ) (h_ij : Fin F → Matrix (Fin c) (Fin c) GM)
    (theta_ij : Fin F → Fin c → Fin c → ℚ) : Matrix (Fin c) (Fin c) GM :=
  Matrix.of fun i j =>
    (List.finRange F).foldl (fun acc f => acc + h_ij f i j * GM.ofRat (theta_ij f i j)) 0

/-- `compute_abs_dDTF = np.abs(dDTF_ij)` elementwise, squared-magnitude
representation. -/
def compute_abs_dDTF_sq (c : ℕ) (M : Matrix (Fin c) (Fin c) GM) :
    Matrix (Fin c) (Fin c) ℚ :=
  Matrix.of fun i j => GM.magSq (M i j)

theorem foldl_add_eq_sum {α : Type} (l : List α) (g : α → GM) (s : GM) :
    l.foldl (fun a x => a + g x) s = s + (l.map g).sum := by
  induction l generalizing s with
  | nil => simp
  | cons a l ih =>
    simp only [List.foldl_cons, List.map_cons, List.sum_cons]
    rw [ih]
    ring

/-- Claim C5.  Each dDTF entry is the sum over all frequency indices of
`H_ij(f)·θ_ij(f)`, accumulated in ascending frequency-index order (the
definition is the ascending left fold of the code's loop), and the
|dDTF| matrix reported downstream is the elementwise magnitude of that
complex sum. -/
theorem C5_dDTF_is_frequency_sum (c F : ℕ)
    (h_ij : Fin F → Matrix (Fin c) (Fin c) GM)
    (theta_ij : Fin F → Fin c → Fin c → ℚ) (i j : Fin c) :
    compute_dDTF c F h_ij theta_ij i j =
      ∑ f, h_ij f i j * GM.ofRat (theta_ij f i j) ∧
    compute_abs_dDTF_sq c (compute_dDTF c F h_ij theta_ij) i j =
      GM.magSq (∑ f, h_ij f i j * GM.ofRat (theta_ij f i j)) := by
  have hsum : compute_dDTF c F h_ij theta_ij i j =
      ∑ f, h_ij f i j * GM.ofRat (theta_ij f i j) := by
    unfold compute_dDTF
    rw [Matrix.of_apply, foldl_add_eq_sum, zero_add, Fin.sum_univ_def]
  exact ⟨hsum, by rw [compute_abs_dDTF_sq, Matrix.of_apply, hsum]⟩

/-!
## Partial coherence (`normalize_complex_arr`, `compute_partial_coherence`)

Per slice, `cof = np.linalg.inv(S).T * np.linalg.det(S)` and
`theta[s,i,j] = cof[s,i,j]**2 / (cof[s,i,i]*cof[s,j,j])`; then
`normalize_complex_arr` offsets the whole frequency-stacked tensor by the
minima of its real and imaginary parts and divides by the maximal
magnitude of the offset tensor, and `np.abs` is taken.  The final real
magnitudes are again tracked as squares: the returned θ entry is
`sqrt(magSq(offset)/maxMagSq)`, so it lies in [0,1] exactly when the
square does.

Float semantics is kept explicit where it differs from exact
arithmetic.  Numpy complex division by an exactly-zero denominator
yields nan+nanj in both components (the componentwise formula
`(ac+bd)/(c²+d²)`, `(bc−ad)/(c²+d²)` is 0/0 in each part when `c=d=0`),
and such zero denominators are reachable even at nonsingular slices
(e.g. S(f) = [[0,1],[1,0]] has cof = [[0,−1],[−1,0]] with zero
diagonal).  A θ tensor entry is therefore `Option GM`: `none` is the
non-finite value.  One `none` entry poisons the normalization, since
`np.min`/`np.max` propagate NaN: `theta.real.min()` is NaN, every
offset entry is NaN, `np.abs(a_oo).max()` is NaN, and every output
entry is NaN.  Likewise, when the (finite) offset tensor is identically
zero the final division is 0/0 = NaN at every entry. -/

/-- `cof = np.linalg.inv(matrix).T * np.linalg.det(matrix)` (elementwise
transpose times the scalar determinant). -/
def cofactorMatrix (c : ℕ) (M : Matrix (Fin c) (Fin c) GM) :
    Matrix (Fin c) (Fin c) GM :=
  Matrix.of fun i j => matInv c M j i * M.det

/-- `theta[s,i,j] = cof[s,i,j]**2 / (cof[s,i,i] * cof[s,j,j])`: the
exact quotient when the denominator is nonzero, `none` (numpy's
nan+nanj from complex division by exact zero) when it vanishes. -/
def theta_raw (c F : ℕ) (S : Fin F → Matrix (Fin c) (Fin c) GM) :
    Fin F → Fin c → Fin c → Option GM :=
  fun s i j =>
    if cofactorMatrix c (S s) i i * cofactorMatrix c (S s) j j = 0 then none
    else some ((cofactorMatrix c (S s) i j * cofactorMatrix c (S s) i j) /
      (cofactorMatrix c (S s) i i * cofactorMatrix c (S s) j j))

/-- The finite values of a tensor without non-finite entries
(meaningful when every entry is `some`). -/
def unwrapTensor (c F : ℕ) (t : Fin F → Fin c → Fin c → Option GM) :
    Fin F → Fin c → Fin c → GM :=
  fun f i j => (t f i j).getD 0

/-- All entries of a frequency-stacked tensor, in row-major order. -/
def tensorEntries (c F : ℕ) (t : Fin F → Fin c → Fin c → GM) : List GM :=
  (List.finRange F).flatMap fun f =>
    (List.finRange c).flatMap fun i =>
      (List.finRange c).map fun j => t f i j

/-- `np.min` of a list of reals (meaningful on nonempty input, as in numpy). -/
def listMin (l : List ℚ) : ℚ := l.foldr min l.headI

/-- `np.max` of a list of reals (meaningful on nonempty input, as in numpy). -/
def listMax (l : List ℚ) : ℚ := l.foldr max l.headI

/-- `a_oo = a - a.real.min() - 1j*a.imag.min()` over the full tensor. -/
def offsetTensor (c F : ℕ) (t : Fin F → Fin c → Fin c → GM) :
    Fin F → Fin c → Fin c → GM :=
  fun f i j =>
    t f i j - ⟨listMin ((tensorEntries c F t).map GM.re),
               listMin ((tensorEntries c F t).map GM.im)⟩

/-- Squared maximal magnitude of the offset tensor,
`np.abs(a_oo).max()**2` (max commutes with the monotone square root). -/
def maxMagSqOffset (c F : ℕ) (t : Fin F → Fin c → Fin c → GM) : ℚ :=
  listMax ((tensorEntries c F (offsetTensor c F t)).map GM.magSq)

/-- Squared magnitude of `normalize_complex_arr` followed by `np.abs`
on a finite tensor: `magSq(a_oo)/maxMagSq`, or `none` (numpy NaN, 0/0)
when the offset tensor is identically zero. -/
def normalizeMagSq (c F : ℕ) (t : Fin F → Fin c → Fin c → GM) :
    Fin F → Fin c → Fin c → Option ℚ :=
  fun f i j =>
    if maxMagSqOffset c F t = 0 then none
    else some (GM.magSq (offsetTensor c F t f i j) / maxMagSqOffset c F t)

/-- `normalize_complex_arr` + `np.abs` on a possibly non-finite tensor:
any `none` entry makes `theta.real.min()`/`theta.imag.min()` NaN (numpy
min propagates NaN), hence every offset entry, `np.abs(a_oo).max()` and
every output entry NaN; otherwise the normalization of the finite
tensor. -/
def normalizeMagSqOpt (c F : ℕ) (t : Fin F → Fin c → Fin c → Option GM) :
    Fin F → Fin c → Fin c → Option ℚ :=
  fun f i j =>
    if ∀ (s : Fin F) (a b : Fin c), (t s a b).isSome = true then
      normalizeMagSq c F (unwrapTensor c F t) f i j
    else none

/-- Squared θ output of `compute_partial_coherence` on a
spectral-density tensor. -/
def compute_partial_coherence_sq (c F : ℕ)
    (S : Fin F → Matrix (Fin c) (Fin c) GM) : Fin F → Fin c → Fin c → Option ℚ :=
  normalizeMagSqOpt c F (theta_raw c F S)

theorem le_foldr_max {l : List ℚ} {a : ℚ} (b : ℚ) (ha : a ∈ l) :
    a ≤ l.foldr max b := by
  induction l with
  | nil => cases ha
  | cons x l ih =>
    rcases List.mem_cons.mp ha with h | h
    · subst h; exact le_max_left _ _
    · exact le_trans (ih h) (le_max_right _ _)

theorem listMax_mem_le {l : List ℚ} {a : ℚ} (ha : a ∈ l) : a ≤ listMax l :=
  le_foldr_max l.headI ha

theorem listMax_nonneg {l : List ℚ} (h : ∀ x ∈ l, 0 ≤ x) : 0 ≤ listMax l := by
  cases l with
  | nil =>
    have hd : (default : ℚ) = 0 := rfl
    simp [listMax, List.headI, hd]
  | cons a l =>
    have ha : 0 ≤ a := h a (List.mem_cons_self a l)
    exact le_trans ha (listMax_mem_le (List.mem_cons_self a l))

theorem mem_tensorEntries (c F : ℕ) (t : Fin F → Fin c → Fin c → GM)
    (f : Fin F) (i j : Fin c) : t f i j ∈ tensorEntries c F t := by
  unfold tensorEntries
  refine List.mem_flatMap.mpr ⟨f, List.mem_finRange f, ?_⟩
  refine List.mem_flatMap.mpr ⟨i, List.mem_finRange i, ?_⟩
  exact List.mem_map.mpr ⟨j, List.mem_finRange j, rfl⟩

theorem maxMagSqOffset_nonneg (c F : ℕ) (t : Fin F → Fin c → Fin c → GM) :
    0 ≤ maxMagSqOffset c F t := by
  refine listMax_nonneg ?_
  intro x hx
  rcases List.mem_map.mp hx with ⟨z, _, hz⟩
  exact hz ▸ GM.magSq_nonneg z

theorem normalizeMagSq_bounds (c F : ℕ) (t : Fin F → Fin c → Fin c → GM)
    (f : Fin F) (i j : Fin c) (h : maxMagSqOffset c F t ≠ 0) :
    normalizeMagSq c F t f i j =
      some (GM.magSq (offsetTensor c F t f i j) / maxMagSqOffset c F t) ∧
    0 ≤ GM.magSq (offsetTensor c F t f i j) / maxMagSqOffset c F t ∧
    GM.magSq (offsetTensor c F t f i j) / maxMagSqOffset c F t ≤ 1 := by
  have hpos : 0 < maxMagSqOffset c F t :=
    lt_of_le_of_ne (maxMagSqOffset_nonneg c F t) (Ne.symm h)
  refine ⟨by simp [normalizeMagSq, h], ?_, ?_⟩
  · exact div_nonneg (GM.magSq_nonneg _) (le_of_lt hpos)
  · rw [div_le_one hpos]
    refine listMax_mem_le ?_
    exact List.mem_map.mpr
      ⟨offsetTensor c F t f i j, mem_tensorEntries c F (offsetTensor c F t) f i j, rfl⟩

/-- Claim C6, amended.  For every spectral-density tensor on which every
raw θ division is finite (every denominator `cof[s,i,i]·cof[s,j,j]` is
nonzero) and whose offset θ tensor is not identically zero, every entry
of the normalized partial-coherence output lies in [0, 1].  Otherwise
the program yields NaN at every entry: from a vanishing denominator
(reachable even at nonsingular slices, e.g. S(f) = [[0,1],[1,0]]) or
from a constant θ tensor (see the counterexample). -/
theorem C6_theta_in_unit_interval (c F : ℕ)
    (S : Fin F → Matrix (Fin c) (Fin c) GM) (f : Fin F) (i j : Fin c)
    (hfin : ∀ (s : Fin F) (a b : Fin c),
      cofactorMatrix c (S s) a a * cofactorMatrix c (S s) b b ≠ 0)
    (h : maxMagSqOffset c F (unwrapTensor c F (theta_raw c F S)) ≠ 0) :
    compute_partial_coherence_sq c F S f i j =
      some (GM.magSq (offsetTensor c F (unwrapTensor c F (theta_raw c F S)) f i j) /
        maxMagSqOffset c F (unwrapTensor c F (theta_raw c F S))) ∧
    0 ≤ GM.magSq (offsetTensor c F (unwrapTensor c F (theta_raw c F S)) f i j) /
        maxMagSqOffset c F (unwrapTensor c F (theta_raw c F S)) ∧
    GM.magSq (offsetTensor c F (unwrapTensor c F (theta_raw c F S)) f i j) /
        maxMagSqOffset c F (unwrapTensor c F (theta_raw c F S)) ≤ 1 := by
  have hsome : ∀ (s : Fin F) (a b : Fin c),
      ((theta_raw c F S) s a b).isSome = true := by
    intro s a b
    simp [theta_raw, hfin s a b]
  have hbounds := normalizeMagSq_bounds c F (unwrapTensor c F (theta_raw c F S)) f i j h
  refine ⟨?_, hbounds.2.1, hbounds.2.2⟩
  unfold compute_partial_coherence_sq normalizeMagSqOpt
  rw [if_pos hsome]
  exact hbounds.1

theorem GM.div_def (x y : GM) : x / y = x * y⁻¹ := rfl

theorem GM.inv_one : (1 : GM)⁻¹ = 1 :=
  GM.ext (by norm_num) (by norm_num)

theorem GM.one_nonzero : (1 : GM) ≠ 0 := fun h => by
  simpa using congrArg GM.re h

theorem matInv_one (c : ℕ) : matInv c (1 : Matrix (Fin c) (Fin c) GM) = 1 := by
  unfold matInv
  rw [Matrix.det_one, Matrix.adjugate_one, GM.inv_one, one_smul]

theorem cofactorMatrix_one (c : ℕ) :
    cofactorMatrix c (1 : Matrix (Fin c) (Fin c) GM) = 1 := by
  ext i j
  simp [cofactorMatrix, matInv_one, Matrix.one_apply, eq_comm]

/-- Spectral-density tensor for the C6 counterexample: a single
1 × 1 slice [[2]], for which the raw θ tensor is the constant 1. -/
def c6S : Fin 1 → Matrix (Fin 1) (Fin 1) GM := fun _ => Matrix.of ![![GM.ofRat 2]]

theorem c6S_theta_raw : theta_raw 1 1 c6S = fun _ _ _ => some 1 := by
  have hcof : cofactorMatrix 1 (c6S 0) = 1 := by
    ext i j
    fin_cases i; fin_cases j
    simp [cofactorMatrix, matInv, c6S, Matrix.det_fin_one, Matrix.adjugate_fin_one,
      Matrix.smul_apply, smul_eq_mul, Matrix.one_apply]
    refine GM.ext ?_ ?_ <;> norm_num [GM.ofRat]
  funext s i j
  fin_cases s; fin_cases i; fin_cases j
  simp [theta_raw, hcof, Matrix.one_apply, GM.one_nonzero, GM.div_def, GM.inv_one]

/-- Claim C6, counterexample.  At the single-channel spectral tensor
[[2]] every raw θ division is finite and the θ tensor is constantly 1,
so the offset tensor is identically zero and `normalize_complex_arr`
divides 0 by 0: the code yields NaN (embedded as `none`) for every
entry, which does not lie in [0, 1] — the claim fails for inputs with a
constant θ tensor (any one-channel input realizes this). -/
theorem C6_counterexample :
    compute_partial_coherence_sq 1 1 c6S 0 0 0 = none := by
  have hsome : ∀ (s : Fin 1) (a b : Fin 1),
      ((theta_raw 1 1 c6S) s a b).isSome = true := by
    rw [c6S_theta_raw]
    intro s a b
    rfl
  have hmax : maxMagSqOffset 1 1 (unwrapTensor 1 1 (theta_raw 1 1 c6S)) = 0 := by
    rw [c6S_theta_raw]
    simp [maxMagSqOffset, offsetTensor, tensorEntries, unwrapTensor, listMin, listMax,
      List.finRange_succ, List.finRange_zero, List.headI, GM.magSq, min_def, max_def]
  unfold compute_partial_coherence_sq normalizeMagSqOpt
  rw [if_pos hsome]
  simp [normalizeMagSq, hmax]

/-- Spectral-density tensor for the C6 witness: a single 2 × 2 identity
slice, whose raw θ tensor is the (non-constant) identity pattern with
all denominators equal to 1. -/
def c6Sgood : Fin 1 → Matrix (Fin 2) (Fin 2) GM := fun _ => 1

theorem c6Sgood_theta_raw :
    theta_raw 2 1 c6Sgood = fun _ i j => if i = j then some (1 : GM) else some 0 := by
  funext s i j
  by_cases hij : i = j
  · subst hij
    simp [theta_raw, c6Sgood, cofactorMatrix_one, Matrix.one_apply, GM.one_nonzero,
      GM.div_def, GM.inv_one]
  · simp [theta_raw, c6Sgood, cofactorMatrix_one, Matrix.one_apply, hij,
      GM.one_nonzero, GM.div_def, GM.inv_one]

theorem c6Sgood_denoms (s : Fin 1) (a b : Fin 2) :
    cofactorMatrix 2 (c6Sgood s) a a * cofactorMatrix 2 (c6Sgood s) b b ≠ 0 := by
  have h1 : c6Sgood s = 1 := rfl
  rw [h1, cofactorMatrix_one]
  simp [Matrix.one_apply]
  exact GM.one_nonzero

theorem c6Sgood_max :
    maxMagSqOffset 2 1 (unwrapTensor 2 1 (theta_raw 2 1 c6Sgood)) = 1 := by
  rw [c6Sgood_theta_raw]
  simp +decide [maxMagSqOffset, offsetTensor, tensorEntries, unwrapTensor, listMin,
    listMax, List.finRange_succ, List.finRange_zero, List.headI, GM.magSq, min_def,
    max_def]

/-- Witness for `C6_theta_in_unit_interval` at the 2-channel identity
spectral slice: every raw θ denominator is 1 and the offset θ tensor
has maximal squared magnitude 1. -/
theorem C6_theta_in_unit_interval_witness :
    compute_partial_coherence_sq 2 1 c6Sgood 0 0 1 =
      some (GM.magSq (offsetTensor 2 1 (unwrapTensor 2 1 (theta_raw 2 1 c6Sgood)) 0 0 1) /
        maxMagSqOffset 2 1 (unwrapTensor 2 1 (theta_raw 2 1 c6Sgood))) ∧
    0 ≤ GM.magSq (offsetTensor 2 1 (unwrapTensor 2 1 (theta_raw 2 1 c6Sgood)) 0 0 1) /
        maxMagSqOffset 2 1 (unwrapTensor 2 1 (theta_raw 2 1 c6Sgood)) ∧
    GM.magSq (offsetTensor 2 1 (unwrapTensor 2 1 (theta_raw 2 1 c6Sgood)) 0 0 1) /
        maxMagSqOffset 2 1 (unwrapTensor 2 1 (theta_raw 2 1 c6Sgood)) ≤ 1 :=
  C6_theta_in_unit_interval 2 1 c6Sgood 0 0 1 c6Sgood_denoms
    (by rw [c6Sgood_max]; norm_num)
